import Mathlib

/-!
Verification of the Beverage Family genealogy application (`src/app.py`).

The source is a small Streamlit application.  The algorithmic core — person
lookup (`get_person_by_id`), profile link resolution (`link_person` inside
`render_person_profile`), ancestor-graph construction (`build_graph` with its
inner recursive `add_node` and its parent loop), JSON loading with error
recovery (`load_json`), and the timeline sort in `render_timeline` — is
embedded below as executable Lean definitions.

Modelling choices, each forced by the Python source:
* A person record is a JSON object with optional fields; only the fields the
  core logic reads (`id`, `full_name`, `parents`) are modelled, each as an
  `Option` to represent a possibly missing key.  `d.get(k)` is `Option`
  access; `d[k]` is access that raises `KeyError` when the key is absent,
  modelled by an explicit error outcome.
* The Python recursion in `build_graph.add_node` carries the mutable
  `visited` set and the growing Graphviz `Digraph` (node and edge statement
  lists, in emission order, duplicates kept, as `graphviz.Digraph` does);
  these are threaded as an explicit `GState`.  The recursion is expressed
  with a fuel parameter; `build_graph` runs it with fuel
  `max_generations + 2`, and the termination theorem below shows this fuel
  is never exhausted and that any larger fuel gives the same result.
* File reading and JSON parsing are external to the repository; `load_json`
  is therefore parametrised by an abstract reader (`none` = the file is
  missing, i.e. `FileNotFoundError`) and an abstract parser (`Except.error`
  = `json.JSONDecodeError`).  The `st.error` notices it emits are collected
  as strings, exactly the f-strings of lines 36 and 39 of the source.
* Python's `sorted` is a stable sort by the key `e.get("date", "")` under
  lexicographic string comparison; a stable sort by a total preorder is
  unique, so it is embedded as `List.insertionSort` (stable) over that key.
-/

namespace Beverage

/-- A person record (`people.json` entry): a JSON object whose fields are all
optional.  Only the fields read by the embedded core logic are carried. -/
structure Person where
  id : Option String := none
  full_name : Option String := none
  parents : Option (List String) := none
  deriving Repr, DecidableEq

/-- An event record (`events.json` entry); the timeline sort reads only the
`date` field, `title` keeps distinct events distinguishable. -/
structure Event where
  date : Option String := none
  title : Option String := none
  deriving Repr, DecidableEq

/-- `get_person_by_id` (src/app.py lines 58–76): linear scan returning the
first record whose `id` field equals `person_id`, else `None`.  The Python
guard is `person.get("id") == person_id`, so a record lacking the key never
matches. -/
def get_person_by_id : List Person → String → Option Person
  | [], _ => none
  | person :: rest, person_id =>
    if person.id = some person_id then some person
    else get_person_by_id rest person_id

/-- `link_person` (src/app.py lines 100–110, inside `render_person_profile`):
returns the markdown link for a resolved person, or the raw identifier when
the lookup fails.  The Python body indexes `p["id"]` and then `p["full_name"]`
directly (not via `.get`), so a resolved record lacking either key raises
`KeyError`; the error value carries the missing key's name. -/
def link_person (people : List Person) (pid : String) : Except String String :=
  match get_person_by_id people pid with
  | none => .ok pid
  | some p =>
    match p.id with
    | none => .error "id"
    | some i =>
      match p.full_name with
      | none => .error "full_name"
      | some name => .ok ("[" ++ name ++ "](?profile=" ++ i ++ ")")

/-- Result of `load_json`: the parsed data together with the `st.error`
notices emitted while loading. -/
structure LoadResult (α : Type) where
  data : List α
  notices : List String
  deriving Repr, DecidableEq

/-- `load_json` (src/app.py lines 19–40).  `readFile` abstracts
`path.open(...).read()` (`none` = `FileNotFoundError`), `parse` abstracts
`json.load` (`Except.error e` = `json.JSONDecodeError` with message `e`).
Both caught exceptions produce an empty list plus the corresponding
`st.error` notice; a successful parse returns the data with no notice. -/
def load_json {α : Type} (readFile : String → Option String)
    (parse : String → Except String (List α)) (path : String) : LoadResult α :=
  match readFile path with
  | none => ⟨[], ["File not found: " ++ path]⟩
  | some text =>
    match parse text with
    | .error e => ⟨[], ["Error parsing " ++ path ++ ": " ++ e]⟩
    | .ok v => ⟨v, []⟩

/-- The sort key of `render_timeline` (src/app.py line 218):
`e.get("date", "")`. -/
def eventKey (e : Event) : String :=
  e.date.getD ""

/-- The comparison used by the timeline sort: lexicographic string order on
the date key. -/
def eventLe (a b : Event) : Prop :=
  eventKey a ≤ eventKey b

instance : DecidableRel eventLe := fun a b =>
  decidable_of_iff ((eventKey a).toList ≤ (eventKey b).toList)
    String.le_iff_toList_le.symm

instance : IsTotal Event eventLe :=
  ⟨fun a b => le_total (eventKey a) (eventKey b)⟩

instance : IsTrans Event eventLe :=
  ⟨fun _ _ _ hab hbc => le_trans hab hbc⟩

/-- `sorted(events, key=lambda e: e.get("date", ""))` (src/app.py line 218):
a stable sort by the date key.  Stable sorting by a total preorder has a
unique result, so the stable `List.insertionSort` is a faithful embedding of
Python's Timsort-based `sorted`. -/
def chronological (events : List Event) : List Event :=
  events.insertionSort eventLe

/-- The state of `build_graph` (src/app.py lines 154–190): the `visited` set
(as the list of identifiers in insertion order; only membership is ever
consulted) and the Graphviz `Digraph` body — node statements `(id, label)`
and edge statements `(tail, head)` in emission order, duplicates kept. -/
structure GState where
  visited : List String
  nodes : List (String × String)
  edges : List (String × String)
  deriving Repr, DecidableEq

/-- Outcome of running the embedded `add_node`: normal completion, a
`KeyError` escaping (carrying the missing key), or fuel exhaustion — an
artefact of the embedding that the termination theorem rules out. -/
inductive BuildRes where
  | fuelOut : BuildRes
  | keyError : String → BuildRes
  | done : GState → BuildRes
  deriving Repr, DecidableEq

/-- The parent loop of `add_node` (src/app.py lines 185–187): for each
`parent_id` emit the edge `(parent_id, pid)`, then recurse (`step` is
`add_node` at the next fuel).  A `KeyError` (or fuel exhaustion) aborts the
loop, as exception propagation does in Python. -/
def addParents (step : String → Nat → GState → BuildRes) :
    List String → String → Nat → GState → BuildRes
  | [], _, _, s => .done s
  | parent_id :: rest, pid, gen, s =>
    match step parent_id (gen + 1) ⟨s.visited, s.nodes, s.edges ++ [(parent_id, pid)]⟩ with
    | .done t => addParents step rest pid gen t
    | .keyError k => .keyError k
    | .fuelOut => .fuelOut

/-- `add_node` (src/app.py lines 176–187), fuel-indexed.  Mirrors the source
line by line: the guard `pid in visited or generation > max_generations`,
`visited.add(pid)`, the lookup, the label `person["full_name"] if person
else pid` (whose direct indexing raises `KeyError` when the key is absent),
`graph.node(pid, label)`, then the parent loop. -/
def addNode (people : List Person) (max_generations : Nat) :
    Nat → String → Nat → GState → BuildRes
  | 0, _, _, _ => .fuelOut
  | fuel + 1, pid, gen, s =>
    if pid ∈ s.visited ∨ gen > max_generations then .done s
    else
      match get_person_by_id people pid with
      | none => .done ⟨s.visited ++ [pid], s.nodes ++ [(pid, pid)], s.edges⟩
      | some person =>
        match person.full_name with
        | none => .keyError "full_name"
        | some label =>
          addParents (addNode people max_generations fuel)
            (person.parents.getD []) pid gen
            ⟨s.visited ++ [pid], s.nodes ++ [(pid, label)], s.edges⟩

/-- `build_graph` (src/app.py lines 154–190): run `add_node(start_id, 0)` on
the empty graph.  Fuel `max_generations + 2` suffices (proved below): every
branch dies at generation `max_generations + 1` at the latest. -/
def build_graph (people : List Person) (start_id : String)
    (max_generations : Nat) : BuildRes :=
  addNode people max_generations (max_generations + 2) start_id 0 ⟨[], [], []⟩

/-! ### Graph construction: basic lemmas -/

/-- Unfolding of `addNode` at positive fuel. -/
lemma addNode_succ (people : List Person) (m fuel : Nat) (pid : String) (gen : Nat)
    (s : GState) :
    addNode people m (fuel + 1) pid gen s =
      if pid ∈ s.visited ∨ gen > m then .done s
      else
        match get_person_by_id people pid with
        | none => .done ⟨s.visited ++ [pid], s.nodes ++ [(pid, pid)], s.edges⟩
        | some person =>
          match person.full_name with
          | none => .keyError "full_name"
          | some label =>
            addParents (addNode people m fuel) (person.parents.getD []) pid gen
              ⟨s.visited ++ [pid], s.nodes ++ [(pid, label)], s.edges⟩ := rfl

/-- The traversal state only grows: every field of a later state extends the
earlier one by appending. -/
def Grows (s t : GState) : Prop :=
  (∃ v, t.visited = s.visited ++ v) ∧ (∃ n, t.nodes = s.nodes ++ n) ∧
    (∃ e, t.edges = s.edges ++ e)

lemma grows_refl (s : GState) : Grows s s :=
  ⟨⟨[], by simp⟩, ⟨[], by simp⟩, ⟨[], by simp⟩⟩

lemma grows_trans {s t u : GState} (h1 : Grows s t) (h2 : Grows t u) : Grows s u := by
  obtain ⟨⟨v1, hv1⟩, ⟨n1, hn1⟩, ⟨e1, he1⟩⟩ := h1
  obtain ⟨⟨v2, hv2⟩, ⟨n2, hn2⟩, ⟨e2, he2⟩⟩ := h2
  exact ⟨⟨v1 ++ v2, by rw [hv2, hv1, List.append_assoc]⟩,
    ⟨n1 ++ n2, by rw [hn2, hn1, List.append_assoc]⟩,
    ⟨e1 ++ e2, by rw [he2, he1, List.append_assoc]⟩⟩

lemma Grows.visited_mem {s t : GState} (h : Grows s t) {a : String}
    (ha : a ∈ s.visited) : a ∈ t.visited := by
  obtain ⟨⟨v, hv⟩, _, _⟩ := h
  rw [hv]
  exact List.mem_append_left _ ha

lemma Grows.nodes_mem {s t : GState} (h : Grows s t) {a : String × String}
    (ha : a ∈ s.nodes) : a ∈ t.nodes := by
  obtain ⟨_, ⟨n, hn⟩, _⟩ := h
  rw [hn]
  exact List.mem_append_left _ ha

lemma Grows.edges_mem {s t : GState} (h : Grows s t) {a : String × String}
    (ha : a ∈ s.edges) : a ∈ t.edges := by
  obtain ⟨_, _, ⟨e, he⟩⟩ := h
  rw [he]
  exact List.mem_append_left _ ha

/-- The parent loop only grows the state, provided each recursive step does. -/
lemma addParents_grows {step : String → Nat → GState → BuildRes}
    (hstep : ∀ q g t t', step q g t = .done t' → Grows t t') :
    ∀ {ps : List String} {pid : String} {gen : Nat} {s s' : GState},
      addParents step ps pid gen s = .done s' → Grows s s' := by
  intro ps
  induction ps with
  | nil =>
    intro pid gen s s' h
    rw [addParents] at h
    cases h
    exact grows_refl _
  | cons q ps ih =>
    intro pid gen s s' h
    rw [addParents] at h
    split at h
    · rename_i t hs
      refine grows_trans (grows_trans ?_ (hstep _ _ _ _ hs)) (ih h)
      exact ⟨⟨[], by simp⟩, ⟨[], by simp⟩, ⟨[(q, pid)], rfl⟩⟩
    · simp at h
    · simp at h

/-- `add_node` only grows the state. -/
lemma addNode_grows (people : List Person) (m : Nat) :
    ∀ (fuel : Nat) {pid : String} {gen : Nat} {s s' : GState},
      addNode people m fuel pid gen s = .done s' → Grows s s' := by
  intro fuel
  induction fuel with
  | zero =>
    intro pid gen s s' h
    rw [addNode] at h
    simp at h
  | succ fuel ih =>
    intro pid gen s s' h
    rw [addNode_succ] at h
    by_cases hg : pid ∈ s.visited ∨ gen > m
    · rw [if_pos hg] at h
      cases h
      exact grows_refl _
    · rw [if_neg hg] at h
      split at h
      · cases h
        exact ⟨⟨[pid], rfl⟩, ⟨[(pid, pid)], rfl⟩, ⟨[], by simp⟩⟩
      · split at h
        · simp at h
        · refine grows_trans ?_ (addParents_grows (fun q g t t' hq => ih hq) h)
          exact ⟨⟨[pid], rfl⟩, ⟨[(pid, _)], rfl⟩, ⟨[], by simp⟩⟩

/-! ### Graph construction: termination and fuel stability -/

/-- The parent loop cannot exhaust fuel if no recursive step does. -/
lemma addParents_ne_fuelOut {step : String → Nat → GState → BuildRes} {pid : String}
    {gen : Nat} (hstep : ∀ q t, step q (gen + 1) t ≠ .fuelOut) :
    ∀ (ps : List String) (s : GState), addParents step ps pid gen s ≠ .fuelOut := by
  intro ps
  induction ps with
  | nil =>
    intro s h
    rw [addParents] at h
    simp at h
  | cons q ps ih =>
    intro s h
    rw [addParents] at h
    split at h
    · exact ih _ h
    · simp at h
    · rename_i hs
      exact hstep _ _ hs

/-- `add_node` never exhausts its fuel when the fuel dominates the remaining
generation budget: every branch stops at generation `m + 1` at the latest. -/
lemma addNode_ne_fuelOut (people : List Person) (m : Nat) :
    ∀ (fuel : Nat) {pid : String} {gen : Nat} {s : GState}, 1 ≤ fuel →
      m + 2 ≤ fuel + gen → addNode people m fuel pid gen s ≠ .fuelOut := by
  intro fuel
  induction fuel with
  | zero =>
    intro pid gen s h1 _
    exact absurd h1 (by omega)
  | succ fuel ih =>
    intro pid gen s _ hb h
    rw [addNode_succ] at h
    by_cases hg : pid ∈ s.visited ∨ gen > m
    · rw [if_pos hg] at h
      simp at h
    · rw [if_neg hg] at h
      have hgen : gen ≤ m := by
        have := (not_or.mp hg).2
        omega
      split at h
      · simp at h
      · split at h
        · simp at h
        · exact addParents_ne_fuelOut
            (fun q t hq => ih (by omega) (by omega) hq) _ _ h

/-- Replacing the step function by one that agrees on all non-fuel-exhausted
results leaves the parent loop's non-fuel-exhausted results unchanged. -/
lemma addParents_step_congr {step step' : String → Nat → GState → BuildRes}
    {pid : String} {gen : Nat}
    (hstep : ∀ q t r, step q (gen + 1) t = r → r ≠ .fuelOut → step' q (gen + 1) t = r) :
    ∀ (ps : List String) (s : GState) (r : BuildRes),
      addParents step ps pid gen s = r → r ≠ .fuelOut →
      addParents step' ps pid gen s = r := by
  intro ps
  induction ps with
  | nil =>
    intro s r h _
    rw [addParents] at h ⊢
    exact h
  | cons q ps ih =>
    intro s r h hne
    rw [addParents] at h ⊢
    split at h
    · rename_i t hs
      rw [hstep _ _ _ hs (by simp)]
      exact ih _ _ h hne
    · rename_i k hs
      rw [hstep _ _ _ hs (by simp)]
      exact h
    · rename_i hs
      exact absurd h.symm hne

/-- Raising the fuel by one preserves every non-fuel-exhausted result. -/
lemma addNode_fuel_congr (people : List Person) (m : Nat) :
    ∀ (fuel : Nat) {pid : String} {gen : Nat} {s : GState} {r : BuildRes},
      addNode people m fuel pid gen s = r → r ≠ .fuelOut →
      addNode people m (fuel + 1) pid gen s = r := by
  intro fuel
  induction fuel with
  | zero =>
    intro pid gen s r h hne
    rw [addNode] at h
    exact absurd h.symm hne
  | succ fuel ih =>
    intro pid gen s r h hne
    rw [addNode_succ] at h
    rw [addNode_succ]
    by_cases hg : pid ∈ s.visited ∨ gen > m
    · rw [if_pos hg] at h ⊢
      exact h
    · rw [if_neg hg] at h ⊢
      cases hp : get_person_by_id people pid with
      | none =>
        rw [hp] at h
        exact h
      | some person =>
        rw [hp] at h
        dsimp only at h ⊢
        cases hf : person.full_name with
        | none =>
          rw [hf] at h
          exact h
        | some label =>
          rw [hf] at h
          exact addParents_step_congr (fun q t r' hq hne' => ih hq hne') _ _ _ h hne

/-- Any fuel at least as large as a sufficient one produces the same
non-fuel-exhausted result. -/
lemma addNode_fuel_ge (people : List Person) (m : Nat) {fuel f : Nat} {pid : String}
    {gen : Nat} {s : GState} {r : BuildRes} (hle : fuel ≤ f)
    (h : addNode people m fuel pid gen s = r) (hne : r ≠ .fuelOut) :
    addNode people m f pid gen s = r := by
  induction f, hle using Nat.le_induction with
  | base => exact h
  | succ f hle ih => exact addNode_fuel_congr people m f ih hne

/-! ### Graph construction: dangling identifiers -/

/-- Invariant: every visited identifier that resolves to no record already
carries its raw-identifier node. -/
def InvD (people : List Person) (s : GState) : Prop :=
  ∀ a, get_person_by_id people a = none → a ∈ s.visited → (a, a) ∈ s.nodes

/-- The parent loop preserves the dangling-node invariant if each recursive
step does (the loop itself only appends edges). -/
lemma addParents_invd {people : List Person} {step : String → Nat → GState → BuildRes}
    (hstep : ∀ q g t t', step q g t = .done t' → InvD people t → InvD people t') :
    ∀ {ps : List String} {pid : String} {gen : Nat} {s s' : GState},
      addParents step ps pid gen s = .done s' → InvD people s → InvD people s' := by
  intro ps
  induction ps with
  | nil =>
    intro pid gen s s' h hi
    rw [addParents] at h
    cases h
    exact hi
  | cons q ps ih =>
    intro pid gen s s' h hi
    rw [addParents] at h
    split at h
    · rename_i t hs
      exact ih h (hstep _ _ _ _ hs hi)
    · simp at h
    · simp at h

/-- `add_node` preserves the dangling-node invariant: an unresolved
identifier is given its raw-label node in the same step that marks it
visited. -/
lemma addNode_invd (people : List Person) (m : Nat) :
    ∀ (fuel : Nat) {pid : String} {gen : Nat} {s s' : GState},
      addNode people m fuel pid gen s = .done s' → InvD people s → InvD people s' := by
  intro fuel
  induction fuel with
  | zero =>
    intro pid gen s s' h _
    rw [addNode] at h
    simp at h
  | succ fuel ih =>
    intro pid gen s s' h hi
    rw [addNode_succ] at h
    by_cases hg : pid ∈ s.visited ∨ gen > m
    · rw [if_pos hg] at h
      cases h
      exact hi
    · rw [if_neg hg] at h
      split at h
      · rename_i hp
        cases h
        intro a ha hav
        rcases List.mem_append.mp hav with hv | hv
        · exact List.mem_append_left _ (hi a ha hv)
        · have haeq : a = pid := by simpa using hv
          subst haeq
          exact List.mem_append_right _ (by simp)
      · rename_i person hp
        split at h
        · simp at h
        · rename_i label hf
          refine addParents_invd (fun q g t t' hx => ih hx) h ?_
          intro a ha hav
          rcases List.mem_append.mp hav with hv | hv
          · exact List.mem_append_left _ (hi a ha hv)
          · have haeq : a = pid := by simpa using hv
            subst haeq
            rw [hp] at ha
            simp at ha

/-- Inside a parent loop running strictly below the generation bound, a
dangling parent entry always ends up with both its raw-label node and its
edge into the child. -/
lemma addParents_dangling {people : List Person} {m fuel : Nat} {pid q : String}
    {gen : Nat} (hqd : get_person_by_id people q = none) (hgen : gen + 1 ≤ m) :
    ∀ {ps : List String} {s s' : GState},
      addParents (addNode people m fuel) ps pid gen s = .done s' → q ∈ ps →
      InvD people s → (q, q) ∈ s'.nodes ∧ (q, pid) ∈ s'.edges := by
  intro ps
  induction ps with
  | nil =>
    intro s s' h hmem hi
    exact absurd hmem (List.not_mem_nil q)
  | cons b ps ih =>
    intro s s' h hmem hi
    rw [addParents] at h
    split at h
    · rename_i t hs
      have hgrow_s' : Grows t s' :=
        addParents_grows (fun q g t t' hx => addNode_grows people m fuel hx) h
      by_cases hbq : b = q
      · subst hbq
        cases fuel with
        | zero =>
          rw [addNode] at hs
          simp at hs
        | succ fuel =>
          rw [addNode_succ] at hs
          by_cases hv : b ∈ s.visited
          · rw [if_pos (Or.inl hv)] at hs
            cases hs
            exact ⟨hgrow_s'.nodes_mem (hi b hqd hv), hgrow_s'.edges_mem (by simp)⟩
          · rw [if_neg (by simp only [not_or]; exact ⟨hv, by omega⟩)] at hs
            rw [hqd] at hs
            cases hs
            exact ⟨hgrow_s'.nodes_mem (by simp), hgrow_s'.edges_mem (by simp)⟩
      · have hmem' : q ∈ ps := by
          rcases List.mem_cons.mp hmem with h' | h'
          · exact absurd h'.symm hbq
          · exact h'
        exact ih h hmem' (addNode_invd people m fuel hs hi)
    · simp at h
    · simp at h

/-- A successful lookup returns a member of the collection whose `id` field
is exactly the queried identifier. -/
lemma get_person_by_id_eq_some {people : List Person} {pid : String} {p : Person}
    (h : get_person_by_id people pid = some p) : p ∈ people ∧ p.id = some pid := by
  induction people with
  | nil => simp [get_person_by_id] at h
  | cons a rest ih =>
    rw [get_person_by_id] at h
    by_cases ha : a.id = some pid
    · rw [if_pos ha] at h
      cases h
      exact ⟨List.mem_cons_self _ _, ha⟩
    · rw [if_neg ha] at h
      obtain ⟨hm, hid⟩ := ih h
      exact ⟨List.mem_cons_of_mem a hm, hid⟩

/-! ### Graph construction: duplicate-freeness -/

lemma nodup_append_single {α : Type} {l : List α} {a : α} (h : l.Nodup)
    (ha : a ∉ l) : (l ++ [a]).Nodup := by
  rw [List.nodup_append]
  exact ⟨h, List.nodup_singleton a,
    fun x hx hxa => ha ((List.mem_singleton.mp hxa) ▸ hx)⟩

/-- Invariant: the node statements list the visited identifiers exactly, in
order, and the visited list never repeats — so no node is emitted twice. -/
def NodeInv (s : GState) : Prop :=
  s.nodes.map Prod.fst = s.visited ∧ s.visited.Nodup

/-- The parent loop preserves the node/visited synchronisation if each
recursive step does. -/
lemma addParents_nodeinv {step : String → Nat → GState → BuildRes}
    (hstep : ∀ q g t t', step q g t = .done t' → NodeInv t → NodeInv t') :
    ∀ {ps : List String} {pid : String} {gen : Nat} {s s' : GState},
      addParents step ps pid gen s = .done s' → NodeInv s → NodeInv s' := by
  intro ps
  induction ps with
  | nil =>
    intro pid gen s s' h hn
    rw [addParents] at h
    cases h
    exact hn
  | cons q ps ih =>
    intro pid gen s s' h hn
    rw [addParents] at h
    split at h
    · rename_i t hs
      exact ih h (hstep _ _ _ _ hs hn)
    · simp at h
    · simp at h

/-- `add_node` preserves the node/visited synchronisation: a node statement
is emitted exactly when an identifier is marked visited, and the visited
guard rules out repeats. -/
lemma addNode_nodeinv (people : List Person) (m : Nat) :
    ∀ (fuel : Nat) {pid : String} {gen : Nat} {s s' : GState},
      addNode people m fuel pid gen s = .done s' → NodeInv s → NodeInv s' := by
  intro fuel
  induction fuel with
  | zero =>
    intro pid gen s s' h _
    rw [addNode] at h
    simp at h
  | succ fuel ih =>
    intro pid gen s s' h hn
    rw [addNode_succ] at h
    by_cases hg : pid ∈ s.visited ∨ gen > m
    · rw [if_pos hg] at h
      cases h
      exact hn
    · rw [if_neg hg] at h
      have hv : pid ∉ s.visited := (not_or.mp hg).1
      split at h
      · cases h
        refine ⟨?_, nodup_append_single hn.2 hv⟩
        rw [List.map_append, hn.1]
        rfl
      · rename_i person hp
        split at h
        · simp at h
        · rename_i label hf
          refine addParents_nodeinv (fun q g t t' hx => ih hx) h
            ⟨?_, nodup_append_single hn.2 hv⟩
          rw [List.map_append, hn.1]
          rfl

/-- Invariant: every emitted edge points into the visited set, and the edge
list never repeats. -/
def EdgeInv (s : GState) : Prop :=
  s.edges.Nodup ∧ ∀ e ∈ s.edges, e.2 ∈ s.visited

/-- The parent loop preserves `EdgeInv` when its parent list has no
duplicates, and all edges it adds either point to the current child or to
identifiers not yet visited when the loop began.  The step function is
required to grow the state, preserve `EdgeInv`, and add only edges pointing
outside the visited set it started from. -/
lemma addParents_edgeinv {step : String → Nat → GState → BuildRes}
    (hgrow : ∀ q g t t', step q g t = .done t' → Grows t t')
    (hstep : ∀ q g t t', step q g t = .done t' → EdgeInv t → EdgeInv t')
    (hnew : ∀ q g t t', step q g t = .done t' → EdgeInv t →
      ∀ e ∈ t'.edges, e ∉ t.edges → e.2 ∉ t.visited) :
    ∀ {ps : List String} {pid : String} {gen : Nat} {s s' : GState},
      addParents step ps pid gen s = .done s' → ps.Nodup → EdgeInv s →
      pid ∈ s.visited → (∀ b ∈ ps, (b, pid) ∉ s.edges) →
      EdgeInv s' ∧ ∀ e ∈ s'.edges, e ∉ s.edges → e.2 = pid ∨ e.2 ∉ s.visited := by
  intro ps
  induction ps with
  | nil =>
    intro pid gen s s' h _ he _ _
    rw [addParents] at h
    cases h
    exact ⟨he, fun e hin hnin => absurd hin hnin⟩
  | cons b ps ih =>
    intro pid gen s s' h hnd he hpid hfresh
    rw [addParents] at h
    split at h
    · rename_i t hs
      have hese : EdgeInv ⟨s.visited, s.nodes, s.edges ++ [(b, pid)]⟩ := by
        refine ⟨nodup_append_single he.1 (hfresh b (List.mem_cons_self b ps)), ?_⟩
        intro e hein
        rcases List.mem_append.mp hein with h' | h'
        · exact he.2 e h'
        · have heq : e = (b, pid) := by simpa using h'
          subst heq
          exact hpid
      have het : EdgeInv t := hstep _ _ _ _ hs hese
      have hgt : Grows (⟨s.visited, s.nodes, s.edges ++ [(b, pid)]⟩ : GState) t :=
        hgrow _ _ _ _ hs
      have hpid_t : pid ∈ t.visited := hgt.visited_mem hpid
      have hfresh_t : ∀ c ∈ ps, (c, pid) ∉ t.edges := by
        intro c hc hct
        by_cases hcse : (c, pid) ∈
            (⟨s.visited, s.nodes, s.edges ++ [(b, pid)]⟩ : GState).edges
        · rcases List.mem_append.mp hcse with h' | h'
          · exact hfresh c (List.mem_cons_of_mem _ hc) h'
          · have hcb : c = b := by simpa using h'
            exact absurd (hcb ▸ hc) (List.nodup_cons.mp hnd).1
        · exact hnew _ _ _ _ hs hese (c, pid) hct hcse hpid
      obtain ⟨he', hnew'⟩ := ih h (List.nodup_cons.mp hnd).2 het hpid_t hfresh_t
      refine ⟨he', fun e hein henin => ?_⟩
      by_cases het' : e ∈ t.edges
      · by_cases hese' : e ∈
            (⟨s.visited, s.nodes, s.edges ++ [(b, pid)]⟩ : GState).edges
        · rcases List.mem_append.mp hese' with h' | h'
          · exact absurd h' henin
          · have heq : e = (b, pid) := by simpa using h'
            exact Or.inl (by rw [heq])
        · exact Or.inr (hnew _ _ _ _ hs hese e het' hese')
      · rcases hnew' e hein het' with h' | h'
        · exact Or.inl h'
        · refine Or.inr fun hmem => h' (hgt.visited_mem hmem)
    · simp at h
    · simp at h

/-- `add_node` preserves `EdgeInv` when every parent list in the collection
is duplicate-free, and all edges it adds point to identifiers it had not yet
visited. -/
lemma addNode_edgeinv (people : List Person) (m : Nat)
    (hps : ∀ p ∈ people, (p.parents.getD []).Nodup) :
    ∀ (fuel : Nat) {pid : String} {gen : Nat} {s s' : GState},
      addNode people m fuel pid gen s = .done s' → EdgeInv s →
      EdgeInv s' ∧ ∀ e ∈ s'.edges, e ∉ s.edges → e.2 ∉ s.visited := by
  intro fuel
  induction fuel with
  | zero =>
    intro pid gen s s' h _
    rw [addNode] at h
    simp at h
  | succ fuel ih =>
    intro pid gen s s' h he
    rw [addNode_succ] at h
    by_cases hg : pid ∈ s.visited ∨ gen > m
    · rw [if_pos hg] at h
      cases h
      exact ⟨he, fun e hin hnin => absurd hin hnin⟩
    · rw [if_neg hg] at h
      have hv : pid ∉ s.visited := (not_or.mp hg).1
      split at h
      · cases h
        exact ⟨⟨he.1, fun e hein => List.mem_append_left _ (he.2 e hein)⟩,
          fun e hin hnin => absurd hin hnin⟩
      · rename_i person hp
        split at h
        · simp at h
        · rename_i label hf
          have hmem : person ∈ people := (get_person_by_id_eq_some hp).1
          have hese : EdgeInv ⟨s.visited ++ [pid], s.nodes ++ [(pid, label)], s.edges⟩ :=
            ⟨he.1, fun e hein => List.mem_append_left _ (he.2 e hein)⟩
          have hfresh : ∀ b ∈ person.parents.getD [], (b, pid) ∉ s.edges :=
            fun b _ hbe => hv (he.2 (b, pid) hbe)
          obtain ⟨he', hnew'⟩ := addParents_edgeinv
            (fun q g t t' hx => addNode_grows people m fuel hx)
            (fun q g t t' hx het => (ih hx het).1)
            (fun q g t t' hx het => (ih hx het).2)
            h (hps person hmem) hese (by simp) hfresh
          refine ⟨he', fun e hin hnin => ?_⟩
          rcases hnew' e hin hnin with h' | h'
          · rw [h']
            exact hv
          · exact fun hmm => h' (List.mem_append_left _ hmm)

/-! ### Timeline sort lemmas -/

/-- The empty string is the minimum of the lexicographic order, so a missing
date key sorts before every other key. -/
lemma empty_string_le (s : String) : "" ≤ s := by
  rw [String.le_iff_toList_le]
  cases h : s.toList with
  | nil => exact le_rfl
  | cons c cs => exact le_of_lt (List.nil_lt_cons c cs)

/-- Filtering by one date key commutes with an ordered insertion: the
inserted element lands in front of the equal-key elements already present
(they all come later in the traversal order of `insertionSort`). -/
lemma filter_orderedInsert (k : String) (a : Event) :
    ∀ l : List Event,
      (List.orderedInsert eventLe a l).filter (fun e => eventKey e == k) =
        if eventKey a == k then a :: l.filter (fun e => eventKey e == k)
        else l.filter (fun e => eventKey e == k)
  | [] => by
    simp only [List.orderedInsert, List.filter]
    by_cases h : eventKey a == k <;> simp [h]
  | b :: l => by
    rw [List.orderedInsert]
    by_cases hab : eventLe a b
    · rw [if_pos hab]
      by_cases h : eventKey a == k <;> simp [List.filter, h]
    · rw [if_neg hab]
      have hba : eventKey b < eventKey a := not_le.mp hab
      by_cases hb : eventKey b == k
      · have hbk : eventKey b = k := by simpa using hb
        have hak : ¬ eventKey a == k := by
          simp only [beq_iff_eq]
          intro hk
          rw [hbk, hk] at hba
          exact lt_irrefl k hba
        simp [List.filter, hb, hak, filter_orderedInsert k a l]
      · by_cases h : eventKey a == k <;>
          simp [List.filter, hb, h, filter_orderedInsert k a l]

/-- Stability of the timeline sort, expressed through filters: for every date
key, the subsequence of events bearing that key is exactly the input
subsequence, in input order. -/
lemma filter_chronological (k : String) :
    ∀ events : List Event,
      (chronological events).filter (fun e => eventKey e == k) =
        events.filter (fun e => eventKey e == k)
  | [] => rfl
  | b :: l => by
    have ih := filter_chronological k l
    rw [chronological] at ih
    rw [chronological, List.insertionSort, filter_orderedInsert k b]
    by_cases h : eventKey b == k <;> simp [List.filter, h, ih]

/-! ### Claim theorems: lookup, link, load, timeline -/

/-- C4: `get_person_by_id` is total — it returns the first record whose `id`
equals the queried identifier whenever one is present, and `none` whenever no
record carries that identifier; being a total Lean function it raises no
exception.  (Proved without the claim's uniqueness hypothesis, hence in
particular under it.) -/
theorem get_person_by_id_total (people : List Person) (pid : String) :
    ((∃ p ∈ people, p.id = some pid) →
      ∃ p l₁ l₂, get_person_by_id people pid = some p ∧ p.id = some pid ∧
        people = l₁ ++ p :: l₂ ∧ ∀ q ∈ l₁, q.id ≠ some pid) ∧
    ((∀ p ∈ people, p.id ≠ some pid) → get_person_by_id people pid = none) := by
  induction people with
  | nil =>
    refine ⟨fun h => ?_, fun _ => rfl⟩
    obtain ⟨p, hp, _⟩ := h
    exact absurd hp (List.not_mem_nil p)
  | cons a rest ih =>
    by_cases ha : a.id = some pid
    · refine ⟨fun _ => ⟨a, [], rest, ?_, ha, rfl, by simp⟩, fun hall => ?_⟩
      · rw [get_person_by_id, if_pos ha]
      · exact absurd ha (hall a (List.mem_cons_self a rest))
    · have hrw : get_person_by_id (a :: rest) pid = get_person_by_id rest pid := by
        rw [get_person_by_id, if_neg ha]
      refine ⟨fun h => ?_, fun hall => ?_⟩
      · obtain ⟨p, hp, hid⟩ := h
        rcases List.mem_cons.mp hp with rfl | hp
        · exact absurd hid ha
        · obtain ⟨p', l₁, l₂, hg, hid', hsplit, hfirst⟩ := ih.1 ⟨p, hp, hid⟩
          refine ⟨p', a :: l₁, l₂, hrw ▸ hg, hid', by rw [hsplit]; rfl, ?_⟩
          intro q hq
          rcases List.mem_cons.mp hq with rfl | hq
          · exact ha
          · exact hfirst q hq
      · rw [hrw]
        exact ih.2 fun p hp => hall p (List.mem_cons_of_mem a hp)

/-- Witness for `get_person_by_id_total` at a concrete collection. -/
theorem get_person_by_id_total_witness :
    get_person_by_id [{ id := some "p1", full_name := some "Ann" }] "missing" = none :=
  (get_person_by_id_total [{ id := some "p1", full_name := some "Ann" }] "missing").2
    (by decide)

/-- C3 (amended): `link_person` returns the raw identifier with no link when
the lookup fails, and the markdown label/link pair when the resolved record
carries a `full_name`; but when the resolved record lacks the `full_name`
key, it raises `KeyError` (the claim's "never fails" does not hold for such
records). -/
theorem link_person_characterization (people : List Person) (pid : String) :
    (get_person_by_id people pid = none → link_person people pid = .ok pid) ∧
    (∀ p nm, get_person_by_id people pid = some p → p.full_name = some nm →
      link_person people pid = .ok ("[" ++ nm ++ "](?profile=" ++ pid ++ ")")) ∧
    (∀ p, get_person_by_id people pid = some p → p.full_name = none →
      link_person people pid = .error "full_name") := by
  refine ⟨fun h => ?_, fun p nm hp hnm => ?_, fun p hp hnm => ?_⟩
  · simp [link_person, h]
  · have hid := (get_person_by_id_eq_some hp).2
    simp [link_person, hp, hid, hnm]
  · have hid := (get_person_by_id_eq_some hp).2
    simp [link_person, hp, hid, hnm]

/-- Witness for `link_person_characterization`: one resolved and one
unresolved identifier. -/
theorem link_person_characterization_witness :
    link_person [{ id := some "p1", full_name := some "Ann" }] "missing" = .ok "missing" ∧
    link_person [{ id := some "p1", full_name := some "Ann" }] "p1" =
      .ok "[Ann](?profile=p1)" :=
  ⟨(link_person_characterization [{ id := some "p1", full_name := some "Ann" }] "missing").1
      rfl,
    (link_person_characterization [{ id := some "p1", full_name := some "Ann" }] "p1").2.1
      { id := some "p1", full_name := some "Ann" } "Ann" rfl rfl⟩

/-- C3 counterexample: a record that resolves but lacks the `full_name` key
makes `link_person` raise `KeyError` — it does not "never fail". -/
theorem link_person_counterexample :
    link_person [{ id := some "p1" }] "p1" = .error "full_name" := rfl

/-- C8: `load_json` never raises and never halts: a missing source yields the
empty collection plus the not-found notice naming the path; a malformed
source yields the empty collection plus the parse-error notice naming the
path and the underlying cause; a well-formed source yields its data. -/
theorem load_json_degrades {α : Type} (readFile : String → Option String)
    (parse : String → Except String (List α)) (path : String) :
    (readFile path = none →
      load_json readFile parse path = ⟨[], ["File not found: " ++ path]⟩) ∧
    (∀ text e, readFile path = some text → parse text = .error e →
      load_json readFile parse path = ⟨[], ["Error parsing " ++ path ++ ": " ++ e]⟩) ∧
    (∀ text v, readFile path = some text → parse text = .ok v →
      load_json readFile parse path = ⟨v, []⟩) := by
  refine ⟨fun h => ?_, fun text e hr hp => ?_, fun text v hr hp => ?_⟩
  · simp [load_json, h]
  · simp [load_json, hr, hp]
  · simp [load_json, hr, hp]

/-- Witness for `load_json_degrades`: a missing file and a malformed file. -/
theorem load_json_degrades_witness :
    load_json (α := Person) (fun _ => none) (fun _ => .ok []) "people.json" =
      ⟨[], ["File not found: people.json"]⟩ ∧
    load_json (α := Person) (fun _ => some "oops") (fun _ => .error "bad json")
        "people.json" =
      ⟨[], ["Error parsing people.json: bad json"]⟩ :=
  ⟨(load_json_degrades (α := Person) (fun _ => none) (fun _ => .ok []) "people.json").1 rfl,
    (load_json_degrades (α := Person) (fun _ => some "oops") (fun _ => .error "bad json")
        "people.json").2.1 "oops" "bad json" rfl rfl⟩

/-- C5: the timeline sort orders events by lexicographic string comparison of
the date key (it is a permutation of the input sorted by `eventLe`), an
absent date is keyed as the empty string and hence bounded below every key,
and the spec's example sorts as stated. -/
theorem chronological_sorts_by_date (events : List Event) :
    (chronological events).Perm events ∧
    (chronological events).Sorted eventLe ∧
    (∀ e, e.date = none → eventKey e = "" ∧ ∀ e', eventLe e e') ∧
    chronological [⟨some "1900-01-01", some "A"⟩, ⟨some "1850-05-05", some "B"⟩] =
      [⟨some "1850-05-05", some "B"⟩, ⟨some "1900-01-01", some "A"⟩] := by
  refine ⟨List.perm_insertionSort eventLe events,
    List.sorted_insertionSort eventLe events, fun e he => ⟨?_, fun e' => ?_⟩, by decide⟩
  · simp [eventKey, he]
  · show eventKey e ≤ eventKey e'
    have : eventKey e = "" := by simp [eventKey, he]
    rw [this]
    exact empty_string_le (eventKey e')

/-- Witness for `chronological_sorts_by_date` at a concrete event list,
discharging the missing-date hypothesis. -/
theorem chronological_sorts_by_date_witness :
    (chronological [⟨none, some "A"⟩, ⟨some "1850", some "B"⟩]).Perm
      [⟨none, some "A"⟩, ⟨some "1850", some "B"⟩] ∧
    eventKey ⟨none, some "A"⟩ = "" :=
  ⟨(chronological_sorts_by_date [⟨none, some "A"⟩, ⟨some "1850", some "B"⟩]).1,
    ((chronological_sorts_by_date []).2.2.1 ⟨none, some "A"⟩ rfl).1⟩

/-- C6: the timeline sort is idempotent, and it is stable in the sense that
for every date key the subsequence of events carrying that key is preserved
exactly, in input order. -/
theorem chronological_stable_idempotent (events : List Event) :
    chronological (chronological events) = chronological events ∧
    ∀ k, (chronological events).filter (fun e => eventKey e == k) =
      events.filter (fun e => eventKey e == k) :=
  ⟨List.Sorted.insertionSort_eq (List.sorted_insertionSort eventLe events),
    fun k => filter_chronological k events⟩

/-! ### Claim theorems: graph construction -/

/-- When every recursive step is an immediate no-op (as at the generation
bound), the parent loop only appends one edge per parent-list entry. -/
lemma addParents_no_recursion {step : String → Nat → GState → BuildRes} {pid : String}
    {gen : Nat} (hstop : ∀ q t, step q (gen + 1) t = .done t) :
    ∀ (ps : List String) (s : GState),
      addParents step ps pid gen s =
        .done ⟨s.visited, s.nodes, s.edges ++ ps.map (fun q => (q, pid))⟩ := by
  intro ps
  induction ps with
  | nil =>
    intro s
    rw [addParents]
    simp
  | cons q ps ih =>
    intro s
    rw [addParents, hstop]
    dsimp only
    rw [ih]
    simp

/-- C2: `build_graph` terminates for every input, cycles included: its fuel
is never exhausted, every fuel above the chosen bound produces the very same
result, and the visited-set guard makes re-entering an already expanded
identifier an immediate no-op (each identifier is expanded at most once). -/
theorem build_graph_terminates (people : List Person) (start_id : String)
    (max_generations : Nat) :
    build_graph people start_id max_generations ≠ .fuelOut ∧
    (∀ fuel, max_generations + 2 ≤ fuel →
      addNode people max_generations fuel start_id 0 ⟨[], [], []⟩ =
        build_graph people start_id max_generations) ∧
    (∀ fuel pid gen s, pid ∈ s.visited →
      addNode people max_generations (fuel + 1) pid gen s = .done s) := by
  have h1 : build_graph people start_id max_generations ≠ .fuelOut :=
    addNode_ne_fuelOut people max_generations (max_generations + 2) (by omega) (by omega)
  refine ⟨h1, fun fuel hf => ?_, fun fuel pid gen s hv => ?_⟩
  · exact addNode_fuel_ge people max_generations hf rfl h1
  · rw [addNode_succ, if_pos (Or.inl hv)]

/-- Witness for `build_graph_terminates`, including a cyclic parent graph
(the two records are each other's parent). -/
theorem build_graph_terminates_witness :
    build_graph [⟨some "a", some "A", some ["b"]⟩, ⟨some "b", some "B", some ["a"]⟩]
        "a" 9 ≠ .fuelOut ∧
    addNode [⟨some "a", some "A", some ["b"]⟩, ⟨some "b", some "B", some ["a"]⟩]
        9 20 "a" 0 ⟨[], [], []⟩ =
      build_graph [⟨some "a", some "A", some ["b"]⟩, ⟨some "b", some "B", some ["a"]⟩]
        "a" 9 ∧
    addNode [⟨some "a", some "A", some ["b"]⟩, ⟨some "b", some "B", some ["a"]⟩]
        9 1 "a" 3 ⟨["a"], [], []⟩ = .done ⟨["a"], [], []⟩ :=
  ⟨(build_graph_terminates [⟨some "a", some "A", some ["b"]⟩,
      ⟨some "b", some "B", some ["a"]⟩] "a" 9).1,
    (build_graph_terminates [⟨some "a", some "A", some ["b"]⟩,
      ⟨some "b", some "B", some ["a"]⟩] "a" 9).2.1 20 (by omega),
    (build_graph_terminates [⟨some "a", some "A", some ["b"]⟩,
      ⟨some "b", some "B", some ["a"]⟩] "a" 9).2.2 0 "a" 3 ⟨["a"], [], []⟩ (by decide)⟩

/-- C1 (amended): with a generation bound of 0, `build_graph` emits exactly
one node (the start node), but it does not always emit zero edges — it emits
one edge per entry of the start person's parent list, since the edge is
emitted before the generation bound cuts off the recursion; and a resolved
start record lacking `full_name` raises `KeyError` instead. -/
theorem build_graph_gen0 (people : List Person) (start_id : String) :
    (get_person_by_id people start_id = none →
      build_graph people start_id 0 =
        .done ⟨[start_id], [(start_id, start_id)], []⟩) ∧
    (∀ p nm, get_person_by_id people start_id = some p → p.full_name = some nm →
      build_graph people start_id 0 =
        .done ⟨[start_id], [(start_id, nm)],
          (p.parents.getD []).map (fun q => (q, start_id))⟩) ∧
    (∀ p, get_person_by_id people start_id = some p → p.full_name = none →
      build_graph people start_id 0 = .keyError "full_name") := by
  have hbg : build_graph people start_id 0 =
      addNode people 0 (1 + 1) start_id 0 ⟨[], [], []⟩ := rfl
  have hstop : ∀ (q : String) (t : GState), addNode people 0 1 q (0 + 1) t = .done t := by
    intro q t
    rw [show (1 : Nat) = 0 + 1 from rfl, addNode_succ]
    rw [if_pos (Or.inr (by omega))]
  refine ⟨fun h => ?_, fun p nm hp hnm => ?_, fun p hp hnm => ?_⟩
  · rw [hbg, addNode_succ, if_neg (by simp), h]
    simp
  · rw [hbg, addNode_succ, if_neg (by simp), hp]
    dsimp only
    rw [hnm]
    dsimp only
    rw [addParents_no_recursion hstop]
    simp
  · rw [hbg, addNode_succ, if_neg (by simp), hp]
    dsimp only
    rw [hnm]

/-- Witness for `build_graph_gen0`: an unresolved start, and a resolved start
whose non-empty parent list forces one edge even at bound 0. -/
theorem build_graph_gen0_witness :
    build_graph [] "x" 0 = .done ⟨["x"], [("x", "x")], []⟩ ∧
    build_graph [⟨some "p1", some "Ann", some ["p2"]⟩] "p1" 0 =
      .done ⟨["p1"], [("p1", "Ann")], [("p2", "p1")]⟩ :=
  ⟨(build_graph_gen0 [] "x").1 rfl,
    (build_graph_gen0 [⟨some "p1", some "Ann", some ["p2"]⟩] "p1").2.1
      ⟨some "p1", some "Ann", some ["p2"]⟩ "Ann" rfl rfl⟩

/-- C1 counterexample: with `maxGenerations = 0` and a start person whose
parent list is non-empty, the built graph has one node but a non-empty edge
list — not "zero edges regardless of the parent list". -/
theorem build_graph_gen0_counterexample :
    build_graph [⟨some "p1", some "Ann", some ["p2"]⟩] "p1" 0 =
      .done ⟨["p1"], [("p1", "Ann")], [("p2", "p1")]⟩ ∧
    (GState.mk ["p1"] [("p1", "Ann")] [("p2", "p1")]).edges ≠ [] := by
  refine ⟨by decide, by decide⟩

/-- C10: when the start identifier resolves to no record, `build_graph`
yields exactly one node, labeled by the raw start identifier, and no edges,
for every generation bound. -/
theorem build_graph_unresolved_start (people : List Person) (start_id : String)
    (max_generations : Nat) (h : get_person_by_id people start_id = none) :
    build_graph people start_id max_generations =
      .done ⟨[start_id], [(start_id, start_id)], []⟩ := by
  have hbg : build_graph people start_id max_generations =
      addNode people max_generations ((max_generations + 1) + 1) start_id 0
        ⟨[], [], []⟩ := rfl
  rw [hbg, addNode_succ, if_neg (by simp), h]
  simp

/-- Witness for `build_graph_unresolved_start` at a concrete collection whose
only record is not the start. -/
theorem build_graph_unresolved_start_witness :
    build_graph [⟨some "p1", some "Ann", none⟩] "zz" 7 =
      .done ⟨["zz"], [("zz", "zz")], []⟩ :=
  build_graph_unresolved_start [⟨some "p1", some "Ann", none⟩] "zz" 7 (by decide)

/-- C7 (amended): whenever `add_node` expands a person strictly below the
generation bound and the build completes, every dangling identifier in that
person's parent list receives both a node labeled by the raw identifier and
a directed edge into the child.  (At the bound exactly, only the edge is
emitted — see the counterexample.) -/
theorem dangling_parent_node_edge (people : List Person) (m fuel : Nat)
    (pid q : String) (gen : Nat) (s s' : GState) (p : Person) (nm : String)
    (h : addNode people m (fuel + 1) pid gen s = .done s')
    (hv : pid ∉ s.visited) (hgen : gen < m)
    (hp : get_person_by_id people pid = some p) (hnm : p.full_name = some nm)
    (hq : q ∈ p.parents.getD []) (hqd : get_person_by_id people q = none)
    (hinv : InvD people s) :
    (q, q) ∈ s'.nodes ∧ (q, pid) ∈ s'.edges := by
  rw [addNode_succ] at h
  rw [if_neg (by simp only [not_or]; exact ⟨hv, by omega⟩)] at h
  rw [hp] at h
  dsimp only at h
  rw [hnm] at h
  dsimp only at h
  refine addParents_dangling hqd (by omega) h hq ?_
  intro a ha hav
  rcases List.mem_append.mp hav with hv' | hv'
  · exact List.mem_append_left _ (hinv a ha hv')
  · have haeq : a = pid := by simpa using hv'
    subst haeq
    rw [hp] at ha
    simp at ha

/-- Witness for `dangling_parent_node_edge`: with bound 1, the dangling
parent "ghost" of the expanded start person receives its raw-label node and
its edge. -/
theorem dangling_parent_node_edge_witness :
    ("ghost", "ghost") ∈
      (GState.mk ["p1", "ghost"] [("p1", "Ann"), ("ghost", "ghost")]
        [("ghost", "p1")]).nodes ∧
    ("ghost", "p1") ∈
      (GState.mk ["p1", "ghost"] [("p1", "Ann"), ("ghost", "ghost")]
        [("ghost", "p1")]).edges :=
  dangling_parent_node_edge [⟨some "p1", some "Ann", some ["ghost"]⟩] 1 2 "p1" "ghost"
    0 ⟨[], [], []⟩
    ⟨["p1", "ghost"], [("p1", "Ann"), ("ghost", "ghost")], [("ghost", "p1")]⟩
    ⟨some "p1", some "Ann", some ["ghost"]⟩ "Ann"
    (by decide) (by decide) (by decide) (by decide) (by decide) (by decide) (by decide)
    (fun a _ hmem => absurd hmem (List.not_mem_nil a))

/-- C7 counterexample: when the person with the dangling parent sits exactly
at the generation bound (here bound 0), the edge to "ghost" is emitted but no
node for "ghost" is — the claim fails without the strict-bound proviso. -/
theorem dangling_parent_counterexample :
    build_graph [⟨some "p1", some "Ann", some ["ghost"]⟩] "p1" 0 =
      .done ⟨["p1"], [("p1", "Ann")], [("ghost", "p1")]⟩ ∧
    ("ghost", "ghost") ∉ ([("p1", "Ann")] : List (String × String)) :=
  ⟨by decide, by decide⟩

/-- C9 (amended): the built graph never contains a duplicate node statement;
its edge statements are duplicate-free provided every parent list in the
collection is itself duplicate-free.  (A repeated entry in one parent list
produces a repeated edge statement — see the counterexample — because
`graph.edge` is called once per entry and `graphviz.Digraph` keeps
duplicates.) -/
theorem build_graph_set_semantics (people : List Person) (start_id : String)
    (max_generations : Nat) :
    ∀ s', build_graph people start_id max_generations = .done s' →
      (s'.nodes.map Prod.fst).Nodup ∧
      ((∀ p ∈ people, (p.parents.getD []).Nodup) → s'.edges.Nodup) := by
  intro s' h
  constructor
  · obtain ⟨hsync, hnd⟩ := addNode_nodeinv people max_generations
      (max_generations + 2) h ⟨rfl, List.nodup_nil⟩
    rw [hsync]
    exact hnd
  · intro hps
    exact (addNode_edgeinv people max_generations hps (max_generations + 2) h
      ⟨List.nodup_nil, by simp⟩).1.1

/-- Witness for `build_graph_set_semantics` on a concrete two-person tree. -/
theorem build_graph_set_semantics_witness :
    ((GState.mk ["p1", "p2"] [("p1", "Ann"), ("p2", "p2")]
       [("p2", "p1")]).nodes.map Prod.fst).Nodup ∧
    (GState.mk ["p1", "p2"] [("p1", "Ann"), ("p2", "p2")] [("p2", "p1")]).edges.Nodup :=
  ⟨(build_graph_set_semantics [⟨some "p1", some "Ann", some ["p2"]⟩] "p1" 1
      ⟨["p1", "p2"], [("p1", "Ann"), ("p2", "p2")], [("p2", "p1")]⟩ (by decide)).1,
    (build_graph_set_semantics [⟨some "p1", some "Ann", some ["p2"]⟩] "p1" 1
      ⟨["p1", "p2"], [("p1", "Ann"), ("p2", "p2")], [("p2", "p1")]⟩ (by decide)).2
      (by decide)⟩

/-- C9 counterexample: a parent list containing the same identifier twice
yields the directed edge ("p2", "p1") twice — the edge list does not have set
semantics. -/
theorem duplicate_edge_counterexample :
    build_graph [⟨some "p1", some "Ann", some ["p2", "p2"]⟩] "p1" 1 =
      .done ⟨["p1", "p2"], [("p1", "Ann"), ("p2", "p2")],
        [("p2", "p1"), ("p2", "p1")]⟩ ∧
    ¬ ([("p2", "p1"), ("p2", "p1")] : List (String × String)).Nodup :=
  ⟨by decide, by decide⟩

end Beverage
